import Mathlib

/-!
Shallow embedding of the `bgwxfb.py` audio-to-framebuffer pipeline
(class `Bgwxfb`), together with theorems checking the specification's
claims about it.  Pixels are packed 16-bit RGB565 values modelled as `ℕ`;
Python floats are modelled as `ℝ` (or `ℚ` where only order comparisons
occur); numpy arrays are modelled as lists or as functions out of `Fin`.
-/

namespace V1dp1

/-! ## Compositor: mixed write mode (`write_pixelwise_mixed`) -/

/-- Target offset used for an even source index `idx` in
`write_pixelwise_mixed`: the code computes `x = idx // height`,
`y = idx % height` and writes at row-major offset `y*width + x`. -/
def mixedEvenOffset (w h idx : ℕ) : ℕ := (idx % h) * w + idx / h

/-- Target offset used for an odd source index `idx` in
`write_pixelwise_mixed`: the code computes `y = idx // width`,
`x = idx % width` and writes at row-major offset `y*width + x`. -/
def mixedOddOffset (w h idx : ℕ) : ℕ := (idx / w) * w + idx % w

/-- `Bgwxfb.write_pixelwise_mixed`: take the first `width*height` samples,
start from an all-zero buffer of the same length, assign every even-indexed
sample at `mixedEvenOffset`, then every odd-indexed sample at
`mixedOddOffset`.  The final `reshape((height, width))` is a row-major view
and is left implicit: the frame is kept as the flat row-major list. -/
def write_pixelwise_mixed (w h : ℕ) (interp : List ℕ) : List ℕ :=
  let flat := interp.take (w * h)
  let n := flat.length
  let afterEven :=
    ((List.range n).filter (fun idx => idx % 2 = 0)).foldl
      (fun acc idx => acc.set (mixedEvenOffset w h idx) (flat.getD idx 0))
      (List.replicate n 0)
  ((List.range n).filter (fun idx => idx % 2 = 1)).foldl
    (fun acc idx => acc.set (mixedOddOffset w h idx) (flat.getD idx 0))
    afterEven

/-! ## Compositor: blended write mode (`write_blended`) -/

/-- Per-pixel body of the interior (0 < ratio < 1) branch of
`Bgwxfb.write_blended`: split `raw` and `mixed` pixels into 5/6/5
channels, combine each channel as `(raw_c*inv + mix_c*coef) >> 8`,
re-mask and re-pack; if black-and-white mode is active, collapse the
packed result to a gray pair via `(value*31)//65535` and
`(value*63)//65535`. -/
def blendPixel (inv coef : ℕ) (bw : Bool) (r m : ℕ) : ℕ :=
  let raw_r := (r >>> 11) &&& 0x1F
  let raw_g := (r >>> 5) &&& 0x3F
  let raw_b := r &&& 0x1F
  let mix_r := (m >>> 11) &&& 0x1F
  let mix_g := (m >>> 5) &&& 0x3F
  let mix_b := m &&& 0x1F
  let br := (raw_r * inv + mix_r * coef) >>> 8
  let bg := (raw_g * inv + mix_g * coef) >>> 8
  let bb := (raw_b * inv + mix_b * coef) >>> 8
  let blended := ((br &&& 0x1F) <<< 11) ||| ((bg &&& 0x3F) <<< 5) ||| (bb &&& 0x1F)
  if bw then
    let gray5 := ((blended * 31) / 65535) &&& 0x1F
    let gray6 := ((blended * 63) / 65535) &&& 0x3F
    (gray5 <<< 11) ||| (gray6 <<< 5) ||| gray5
  else blended

/-- `Bgwxfb.write_blended`.  `raw` is the direct row-major reshape of the
first `width*height` samples, `mixed` the mixed-mode frame.  The blend
ratio is compared exactly as in the code (`<= 0` returns raw, `>= 1`
returns mixed).  The interior branch multiplies by the object attributes
`_blend_inv` and `_blend_coef`; a Python attribute that may be unset is
modelled as an `Option`, and reading an unset attribute is an
`AttributeError`, modelled as `none`. -/
def write_blended (w h : ℕ) (ratio : ℚ) (blendInv blendCoef : Option ℕ)
    (bw : Bool) (interp : List ℕ) : Option (List ℕ) :=
  let raw := interp.take (w * h)
  let mixed := write_pixelwise_mixed w h interp
  if ratio ≤ 0 then some raw
  else if 1 ≤ ratio then some mixed
  else
    match blendInv, blendCoef with
    | some inv, some coef => some (List.zipWith (blendPixel inv coef bw) raw mixed)
    | _, _ => none

/-- Clamping of the blend ratio performed in `Bgwxfb.__init__`:
`self.blend_ratio = max(0.0, min(1.0, self.blend_ratio))`. -/
def clampRatio (r : ℚ) : ℚ := max 0 (min 1 r)

/-- `Bgwxfb.__init__` sets `self.use_black_and_white = False` and never
assigns `self._blend_inv`: the attribute is unset after initialization. -/
def initBlendInv : Option ℕ := none

/-- `Bgwxfb.__init__` never assigns `self._blend_coef`: the attribute is
unset after initialization. -/
def initBlendCoef : Option ℕ := none

/-- `use_black_and_white` as set by `Bgwxfb.__init__` (always `False`;
no CLI flag or config key ever sets it). -/
def initBlackAndWhite : Bool := false

/-! ## Frame Committer: partial update (`prev_frame_update`) -/

/-- A composed pixel frame: `height × width` packed 16-bit values. -/
abbrev Frame (hh ww : ℕ) := Fin hh → Fin ww → ℕ

/-- Rows of `f` that differ from `p` in at least one pixel
(`rows = np.any(diff, axis=1)`). -/
def diffRows {hh ww : ℕ} (p f : Frame hh ww) : Finset (Fin hh) :=
  Finset.univ.filter (fun r => ∃ c, f r c ≠ p r c)

/-- Columns of `f` that differ from `p` in at least one pixel
(`cols = np.any(diff, axis=0)`). -/
def diffCols {hh ww : ℕ} (p f : Frame hh ww) : Finset (Fin ww) :=
  Finset.univ.filter (fun c => ∃ r, f r c ≠ p r c)

/-- `Bgwxfb.prev_frame_update`, acting on the framebuffer surface `s`, the
previous-frame snapshot `p` and the new frame `f`.  If no pixel differs the
code returns immediately (modelled by the `Bool` component `false`:
no write).  Otherwise it takes the first and last differing row and
column, assigns the surface rectangle `[r0:r1+1, c0:c1+1]` from the new
frame, and overwrites the whole previous-frame snapshot with the new
frame.  Returns (surface, previous frame, wrote?). -/
def prev_frame_update {hh ww : ℕ} (s p f : Frame hh ww) :
    Frame hh ww × Frame hh ww × Bool :=
  if hR : (diffRows p f).Nonempty then
    have hC : (diffCols p f).Nonempty := by
      obtain ⟨r, hr⟩ := hR
      rw [diffRows, Finset.mem_filter] at hr
      obtain ⟨c, hc⟩ := hr.2
      exact ⟨c, by rw [diffCols, Finset.mem_filter]; exact ⟨Finset.mem_univ c, r, hc⟩⟩
    let r0 := (diffRows p f).min' hR
    let r1 := (diffRows p f).max' hR
    let c0 := (diffCols p f).min' hC
    let c1 := (diffCols p f).max' hC
    (fun r c => if r0 ≤ r ∧ r ≤ r1 ∧ c0 ≤ c ∧ c ≤ c1 then f r c else s r c, f, true)
  else (s, p, false)

/-! ## Compositor: random map (`np.random.permutation`)

`numpy`'s `np.random.permutation(n)` shuffles `arange(n)` with the
Fisher–Yates algorithm: for `i = n-1, n-2, …, 1` it draws a random
`j ≤ i` and swaps positions `i` and `j`.  The random source is modelled
as an arbitrary oracle `g : ℕ → ℕ` reduced mod `i+1` at each step, so
every theorem below holds for every possible stream of random draws. -/

/-- Swap the elements at positions `i` and `j` of a list. -/
def swapAt2 (l : List ℕ) (i j : ℕ) : List ℕ :=
  (l.set i (l.getD j 0)).set j (l.getD i 0)

/-- The descending Fisher–Yates pass: `fyPass g i l` swaps position `i`
with a drawn position `≤ i`, then recurses on `i-1`, stopping at 0. -/
def fyPass (g : ℕ → ℕ) : ℕ → List ℕ → List ℕ
  | 0, l => l
  | i + 1, l => fyPass g i (swapAt2 l (i + 1) (g (i + 1) % (i + 2)))

/-- `np.random.permutation n` under the draw oracle `g`. -/
def randPerm (g : ℕ → ℕ) (n : ℕ) : List ℕ :=
  fyPass g (n - 1) (List.range n)

/-- The random map used by the pipeline for frame number `t`: regenerated
from a fresh oracle `gs t` on every frame when reshuffle is enabled
(`audio_callback`), otherwise the map generated once in `Bgwxfb.__init__`
from the startup oracle `g0`. -/
def random_map_used (g0 : ℕ → ℕ) (gs : ℕ → ℕ → ℕ) (reshuffle : Bool)
    (n t : ℕ) : List ℕ :=
  if reshuffle then randPerm (gs t) n else randPerm g0 n

/-! ## Signal Extractor: frequency mode (`audio_callback`, lines 214–218)

`np.fft.rfft` of an `N`-sample real block yields the `N/2+1` spectral
bins `X_k = Σ_j buf_j · exp(-2πi·j·k/N)`; the code takes their absolute
values, then divides by `amp.max() or 1.0`. -/

/-- Magnitude of the `k`-th bin of `np.fft.rfft(buf)` (`np.abs(fft)`). -/
noncomputable def rfftAmp (N : ℕ) (buf : Fin N → ℝ) (k : ℕ) : ℝ :=
  Complex.abs (∑ j : Fin N,
    (buf j : ℂ) * Complex.exp (-(2 * (Real.pi : ℂ) * Complex.I * ((j : ℕ) : ℂ) * (k : ℂ)) / (N : ℂ)))

/-- The magnitude spectrum `amp = np.abs(np.fft.rfft(buf))`, a list of
`N/2+1` bins. -/
noncomputable def rfftAmpList (N : ℕ) (buf : Fin N → ℝ) : List ℝ :=
  (List.range (N / 2 + 1)).map (rfftAmp N buf)

/-- `amp.max()` (the fold base 0 is never the strict maximum since every
magnitude is non-negative). -/
noncomputable def rfftMax (N : ℕ) (buf : Fin N → ℝ) : ℝ :=
  (rfftAmpList N buf).foldr max 0

/-- `maxv = amp.max() or 1.0`: Python's `or` replaces a zero maximum by
`1.0`. -/
noncomputable def rfftDivisor (N : ℕ) (buf : Fin N → ℝ) : ℝ :=
  if rfftMax N buf = 0 then 1 else rfftMax N buf

/-- The normalized spectrum `amp = amp / maxv` produced by the frequency
branch of `audio_callback`. -/
noncomputable def rfftNorm (N : ℕ) (buf : Fin N → ℝ) : List ℝ :=
  (rfftAmpList N buf).map (fun a => a / rfftDivisor N buf)

/-! ## Spatial Interpolator (`__init__` line 143, `audio_callback` line 224) -/

/-- `np.linspace(start, stop, num, endpoint=False)`:
`num` samples `start + k·(stop-start)/num`. -/
noncomputable def linspace (start stop : ℝ) (num : ℕ) : List ℝ :=
  (List.range num).map (fun k : ℕ => start + (k : ℝ) * ((stop - start) / (num : ℝ)))

/-- `self.interp_x = np.linspace(0, self.blocksize//2+1,
self.width*self.height, endpoint=False)` — fixed in `__init__`,
independent of the frequency/amplitude mode flag. -/
noncomputable def interp_x (blocksize wh : ℕ) : List ℝ :=
  linspace 0 ((blocksize / 2 + 1 : ℕ) : ℝ) wh

/-- Modelled from the spec: the sample points the specification claims for
the Spatial Interpolator — `width*height` evenly spaced points spanning
the bin range the Signal Extractor produced, `[0, blockSize/2+1)` in
frequency mode and `[0, blockSize)` in amplitude mode.  (The repository
has no separate definition of this; it is the refinement target the code's
`interp_x` is compared against.) -/
noncomputable def claimed_interp_x (freq : Bool) (blocksize wh : ℕ) : List ℝ :=
  linspace 0 ((if freq then blocksize / 2 + 1 else blocksize : ℕ) : ℝ) wh

/-- `np.interp(x, np.arange(len(fp)), fp)` for one query point `x`:
clamp below the first and above the last sample point, otherwise
interpolate linearly between the two neighbouring samples. -/
noncomputable def npInterp (fp : List ℝ) (x : ℝ) : ℝ :=
  if x ≤ 0 then fp.getD 0 0
  else if ((fp.length - 1 : ℕ) : ℝ) ≤ x then fp.getD (fp.length - 1) 0
  else
    let i := (⌊x⌋).toNat
    fp.getD i 0 + (x - (i : ℝ)) * (fp.getD (i + 1) 0 - fp.getD i 0)

/-- Line 224: `interp = np.interp(self.interp_x, np.arange(len(rgb)),
rgb).astype(np.uint16)` — linear interpolation of the packed-color
sequence at the fixed sample points, truncated back to `uint16`. -/
noncomputable def interpolated (blocksize wh : ℕ) (rgb : List ℕ) : List ℕ :=
  (interp_x blocksize wh).map
    (fun x => (⌊npInterp (rgb.map (fun v : ℕ => (v : ℝ))) x⌋).toNat % 65536)

/-! ## Color Mapper (`float_to_rgb565`) -/

/-- Python `int(x)` on a float: truncation toward zero. -/
noncomputable def pyInt (x : ℝ) : ℤ :=
  if 0 ≤ x then ⌊x⌋ else -⌊-x⌋

/-- `Bgwxfb.float_to_rgb565`.  In black-and-white mode the packed color is
built from the single gray level `int(v*31) & 0x1F` (the position `h` is
not read); otherwise the hue table entry for `int((h % 1.0)*360)` is split
into 5/6/5 channels, each scaled by `v`, truncated, re-masked and
re-packed.  Python's `&` with an all-ones mask is arithmetic mod the next
power of two, also for negative values. -/
noncomputable def float_to_rgb565 (bw : Bool) (hue_lut : List ℕ) (h v : ℝ) : ℕ :=
  if bw then
    let gray := ((pyInt (v * 31)).emod 32).toNat
    (gray <<< 11) ||| ((gray <<< 1) <<< 5) ||| gray
  else
    let base := hue_lut.getD (pyInt ((h - ⌊h⌋) * 360)).toNat 0
    let r5 := (base >>> 11) &&& 0x1F
    let g6 := (base >>> 5) &&& 0x3F
    let b5 := base &&& 0x1F
    ((((pyInt ((r5 : ℝ) * v)).emod 32).toNat) <<< 11) |||
      ((((pyInt ((g6 : ℝ) * v)).emod 64).toNat) <<< 5) |||
      (((pyInt ((b5 : ℝ) * v)).emod 32).toNat)

end V1dp1

namespace V1dp1

/-- Moving an element to the front of the prefix is a permutation:
`a :: t` is a permutation of `t[j] :: t.set j a` for `j < t.length`. -/
theorem cons_perm_getD_set (t : List ℕ) (j : ℕ) (a : ℕ) (hj : j < t.length) :
    List.Perm (a :: t) (t.getD j 0 :: t.set j a) := by
  induction t generalizing j with
  | nil => simp at hj
  | cons b t' ih =>
    cases j with
    | zero => simpa using List.Perm.swap b a t'
    | succ j' =>
      have hj' : j' < t'.length := by simpa using hj
      have step1 : List.Perm (a :: b :: t') (b :: a :: t') := List.Perm.swap b a t'
      have step2 : List.Perm (b :: a :: t') (b :: (t'.getD j' 0 :: t'.set j' a)) :=
        List.Perm.cons b (ih j' hj')
      have step3 : List.Perm (b :: t'.getD j' 0 :: t'.set j' a)
          (t'.getD j' 0 :: b :: t'.set j' a) := List.Perm.swap (t'.getD j' 0) b _
      simpa using (step1.trans step2).trans step3

/-- Swapping two in-bounds positions of a list yields a permutation of it. -/
theorem swapAt2_perm (l : List ℕ) (i j : ℕ) (hi : i < l.length) (hj : j < l.length) :
    List.Perm (swapAt2 l i j) l := by
  induction l generalizing i j with
  | nil => simp at hi
  | cons a t ih =>
    cases i with
    | zero =>
      cases j with
      | zero => simp [swapAt2]
      | succ j' =>
        have hj' : j' < t.length := by simpa using hj
        have : swapAt2 (a :: t) 0 (j' + 1) = t.getD j' 0 :: t.set j' a := by
          simp [swapAt2]
        rw [this]
        exact (cons_perm_getD_set t j' a hj').symm
    | succ i' =>
      cases j with
      | zero =>
        have hi' : i' < t.length := by simpa using hi
        have : swapAt2 (a :: t) (i' + 1) 0 = t.getD i' 0 :: t.set i' a := by
          simp [swapAt2]
        rw [this]
        exact (cons_perm_getD_set t i' a hi').symm
      | succ j' =>
        have hi' : i' < t.length := by simpa using hi
        have hj' : j' < t.length := by simpa using hj
        have : swapAt2 (a :: t) (i' + 1) (j' + 1) = a :: swapAt2 t i' j' := by
          simp [swapAt2]
        rw [this]
        exact List.Perm.cons a (ih i' j' hi' hj')

/-- The descending Fisher–Yates pass permutes its input whenever the top
index is in bounds. -/
theorem fyPass_perm (g : ℕ → ℕ) (i : ℕ) (l : List ℕ) (h : i < l.length) :
    List.Perm (fyPass g i l) l := by
  induction i generalizing l with
  | zero => exact List.Perm.refl l
  | succ i' ih =>
    have hlen : (swapAt2 l (i' + 1) (g (i' + 1) % (i' + 2))).length = l.length := by
      simp [swapAt2]
    have hswap : List.Perm (swapAt2 l (i' + 1) (g (i' + 1) % (i' + 2))) l :=
      swapAt2_perm l (i' + 1) _ h
        (lt_of_lt_of_le (Nat.mod_lt _ (Nat.succ_pos _)) (Nat.succ_le_of_lt h))
    have hrec : List.Perm (fyPass g i' (swapAt2 l (i' + 1) (g (i' + 1) % (i' + 2))))
        (swapAt2 l (i' + 1) (g (i' + 1) % (i' + 2))) := by
      apply ih
      rw [hlen]
      exact Nat.lt_of_succ_lt h
    rw [fyPass]
    exact hrec.trans hswap

end V1dp1

namespace V1dp1

/-- C9: for every `width ≥ 1`, `height ≥ 1` and source index
`idx < width*height`, both mixed-mode target offsets lie in
`[0, width*height)`, so every write in `write_pixelwise_mixed` is within
the output buffer's bounds. -/
theorem mixed_offsets_in_bounds (w h idx : ℕ)
    (hw : 1 ≤ w) (hh : 1 ≤ h) (hidx : idx < w * h) :
    mixedEvenOffset w h idx < w * h ∧ mixedOddOffset w h idx < w * h := by
  constructor
  · have hmod : idx % h < h := Nat.mod_lt _ hh
    have hdiv : idx / h < w := by
      have : idx < w * h := hidx
      exact Nat.div_lt_of_lt_mul (by rwa [Nat.mul_comm] at this)
    have h1 : (idx % h) * w + idx / h < (idx % h) * w + w :=
      Nat.add_lt_add_left hdiv _
    have h2 : (idx % h) * w + w = (idx % h + 1) * w := by ring
    have h3 : (idx % h + 1) * w ≤ h * w :=
      Nat.mul_le_mul_right _ (Nat.succ_le_of_lt hmod)
    unfold mixedEvenOffset
    calc (idx % h) * w + idx / h < (idx % h + 1) * w := by rw [← h2]; exact h1
      _ ≤ h * w := h3
      _ = w * h := Nat.mul_comm _ _
  · have hmod : idx % w < w := Nat.mod_lt _ hw
    have hdiv : idx / w < h := Nat.div_lt_of_lt_mul hidx
    have h1 : (idx / w) * w + idx % w < (idx / w) * w + w :=
      Nat.add_lt_add_left hmod _
    have h2 : (idx / w) * w + w = (idx / w + 1) * w := by ring
    have h3 : (idx / w + 1) * w ≤ h * w :=
      Nat.mul_le_mul_right _ (Nat.succ_le_of_lt hdiv)
    unfold mixedOddOffset
    calc (idx / w) * w + idx % w < (idx / w + 1) * w := by rw [← h2]; exact h1
      _ ≤ h * w := h3
      _ = w * h := Nat.mul_comm _ _

/-- Witness for C9 at `width = height = 2`, `idx = 3`. -/
theorem mixed_offsets_in_bounds_witness :
    1 ≤ 2 ∧ 1 ≤ 2 ∧ 3 < 2 * 2 ∧
      (mixedEvenOffset 2 2 3 < 2 * 2 ∧ mixedOddOffset 2 2 3 < 2 * 2) :=
  ⟨by decide, by decide, by decide,
    mixed_offsets_in_bounds 2 2 3 (by decide) (by decide) (by decide)⟩

/-- C4: with blend ratio ≤ 0 the blend compositor returns exactly the Raw
(direct row-major reshape) frame, and with ratio ≥ 1 exactly the Mixed
frame, for every interpolated input, every black-and-white setting and
every state of the blend-coefficient attributes. -/
theorem write_blended_boundary (w h : ℕ) (bw : Bool) (bi bc : Option ℕ)
    (interp : List ℕ) (r1 r2 : ℚ) (h1 : r1 ≤ 0) (h2 : 1 ≤ r2) :
    write_blended w h r1 bi bc bw interp = some (interp.take (w * h)) ∧
      write_blended w h r2 bi bc bw interp = some (write_pixelwise_mixed w h interp) := by
  constructor
  · simp [write_blended, h1]
  · have hn : ¬ r2 ≤ 0 := by
      intro hc
      have : (1 : ℚ) ≤ 0 := le_trans h2 hc
      norm_num at this
    simp [write_blended, hn, h2]

/-- Witness for C4 at ratios 0 and 1 on a concrete 1×1 input. -/
theorem write_blended_boundary_witness :
    ((0 : ℚ) ≤ 0) ∧ ((1 : ℚ) ≤ 1) ∧
      (write_blended 1 1 0 none none false [5] = some ([5].take (1 * 1)) ∧
        write_blended 1 1 1 none none false [5] = some (write_pixelwise_mixed 1 1 [5])) :=
  ⟨le_refl 0, le_refl 1,
    write_blended_boundary 1 1 false none none [5] 0 1 (le_refl 0) (le_refl 1)⟩

/-- C1 (failing-input evaluation): with the state produced by
`Bgwxfb.__init__` — blend ratio clamped from 0.5 and the attributes
`_blend_inv`, `_blend_coef` never assigned — the interior blend branch
reads an unset attribute and fails (Python raises `AttributeError`)
instead of computing the per-channel weighted blend the claim describes. -/
theorem write_blended_attr_missing :
    write_blended 2 2 (clampRatio (1/2)) initBlendInv initBlendCoef
      initBlackAndWhite [0, 1, 2, 3] = none := by
  norm_num [write_blended, clampRatio, initBlendInv, initBlendCoef, initBlackAndWhite]

/-- C3: in partial-update mode, for a new frame differing from the previous
frame in at least one pixel, the Committer writes to the surface exactly
the minimal bounding rectangle `[r0,r1]×[c0,c1]` of the differing rows and
columns — its extreme rows and columns really do contain differences
(tightness), every differing pixel lies inside it (covering), the surface
equals the new frame inside it and is untouched outside it — and the
previous-frame snapshot afterwards equals the entire new frame. -/
theorem prev_frame_update_bounding_rect {hh ww : ℕ} (s p f : Frame hh ww)
    (hd : ∃ r c, f r c ≠ p r c) :
    ∃ (r0 r1 : Fin hh) (c0 c1 : Fin ww),
      (∃ c, f r0 c ≠ p r0 c) ∧ (∃ c, f r1 c ≠ p r1 c) ∧
      (∃ r, f r c0 ≠ p r c0) ∧ (∃ r, f r c1 ≠ p r c1) ∧
      (∀ r c, f r c ≠ p r c → r0 ≤ r ∧ r ≤ r1 ∧ c0 ≤ c ∧ c ≤ c1) ∧
      (∀ r c, r0 ≤ r → r ≤ r1 → c0 ≤ c → c ≤ c1 →
        (prev_frame_update s p f).1 r c = f r c) ∧
      (∀ r c, ¬(r0 ≤ r ∧ r ≤ r1 ∧ c0 ≤ c ∧ c ≤ c1) →
        (prev_frame_update s p f).1 r c = s r c) ∧
      (prev_frame_update s p f).2.1 = f := by
  obtain ⟨r, c, hrc⟩ := hd
  have hR : (diffRows p f).Nonempty :=
    ⟨r, by rw [diffRows, Finset.mem_filter]; exact ⟨Finset.mem_univ r, c, hrc⟩⟩
  have hC : (diffCols p f).Nonempty :=
    ⟨c, by rw [diffCols, Finset.mem_filter]; exact ⟨Finset.mem_univ c, r, hrc⟩⟩
  have hmemR : ∀ r' : Fin hh, r' ∈ diffRows p f ↔ ∃ c', f r' c' ≠ p r' c' := by
    intro r'
    rw [diffRows, Finset.mem_filter]
    exact ⟨fun h => h.2, fun h => ⟨Finset.mem_univ r', h⟩⟩
  have hmemC : ∀ c' : Fin ww, c' ∈ diffCols p f ↔ ∃ r', f r' c' ≠ p r' c' := by
    intro c'
    rw [diffCols, Finset.mem_filter]
    exact ⟨fun h => h.2, fun h => ⟨Finset.mem_univ c', h⟩⟩
  have hupd : prev_frame_update s p f =
      (fun r c => if (diffRows p f).min' hR ≤ r ∧ r ≤ (diffRows p f).max' hR ∧
          (diffCols p f).min' hC ≤ c ∧ c ≤ (diffCols p f).max' hC
        then f r c else s r c, f, true) := by
    rw [prev_frame_update, dif_pos hR]
  refine ⟨(diffRows p f).min' hR, (diffRows p f).max' hR,
    (diffCols p f).min' hC, (diffCols p f).max' hC,
    (hmemR _).1 ((diffRows p f).min'_mem hR),
    (hmemR _).1 ((diffRows p f).max'_mem hR),
    (hmemC _).1 ((diffCols p f).min'_mem hC),
    (hmemC _).1 ((diffCols p f).max'_mem hC),
    ?_, ?_, ?_, ?_⟩
  · intro r' c' hdiff
    have hrmem : r' ∈ diffRows p f := (hmemR r').2 ⟨c', hdiff⟩
    have hcmem : c' ∈ diffCols p f := (hmemC c').2 ⟨r', hdiff⟩
    exact ⟨(diffRows p f).min'_le _ hrmem, (diffRows p f).le_max' _ hrmem,
      (diffCols p f).min'_le _ hcmem, (diffCols p f).le_max' _ hcmem⟩
  · intro r' c' h1 h2 h3 h4
    rw [hupd]
    exact if_pos ⟨h1, h2, h3, h4⟩
  · intro r' c' hout
    rw [hupd]
    exact if_neg hout
  · rw [hupd]

/-- Witness for C3 on concrete 2×2 frames differing in one pixel. -/
theorem prev_frame_update_bounding_rect_witness :
    (∃ r c, (fun (r : Fin 2) (c : Fin 2) => if r = 0 ∧ c = 0 then 7 else 0) r c ≠
        (fun (_ : Fin 2) (_ : Fin 2) => (0 : ℕ)) r c) ∧
      (∃ (r0 r1 : Fin 2) (c0 c1 : Fin 2),
        (∃ c, (fun (r : Fin 2) (c : Fin 2) => if r = 0 ∧ c = 0 then 7 else 0) r0 c ≠
          (fun (_ : Fin 2) (_ : Fin 2) => (0 : ℕ)) r0 c) ∧
        (∃ c, (fun (r : Fin 2) (c : Fin 2) => if r = 0 ∧ c = 0 then 7 else 0) r1 c ≠
          (fun (_ : Fin 2) (_ : Fin 2) => (0 : ℕ)) r1 c) ∧
        (∃ r, (fun (r : Fin 2) (c : Fin 2) => if r = 0 ∧ c = 0 then 7 else 0) r c0 ≠
          (fun (_ : Fin 2) (_ : Fin 2) => (0 : ℕ)) r c0) ∧
        (∃ r, (fun (r : Fin 2) (c : Fin 2) => if r = 0 ∧ c = 0 then 7 else 0) r c1 ≠
          (fun (_ : Fin 2) (_ : Fin 2) => (0 : ℕ)) r c1) ∧
        (∀ r c, (fun (r : Fin 2) (c : Fin 2) => if r = 0 ∧ c = 0 then 7 else 0) r c ≠
            (fun (_ : Fin 2) (_ : Fin 2) => (0 : ℕ)) r c →
          r0 ≤ r ∧ r ≤ r1 ∧ c0 ≤ c ∧ c ≤ c1) ∧
        (∀ r c, r0 ≤ r → r ≤ r1 → c0 ≤ c → c ≤ c1 →
          (prev_frame_update (fun _ _ => 0) (fun _ _ => 0)
            (fun (r : Fin 2) (c : Fin 2) => if r = 0 ∧ c = 0 then 7 else 0)).1 r c =
            (fun (r : Fin 2) (c : Fin 2) => if r = 0 ∧ c = 0 then 7 else 0) r c) ∧
        (∀ r c, ¬(r0 ≤ r ∧ r ≤ r1 ∧ c0 ≤ c ∧ c ≤ c1) →
          (prev_frame_update (fun _ _ => 0) (fun _ _ => 0)
            (fun (r : Fin 2) (c : Fin 2) => if r = 0 ∧ c = 0 then 7 else 0)).1 r c =
            (fun (_ : Fin 2) (_ : Fin 2) => (0 : ℕ)) r c) ∧
        (prev_frame_update (fun _ _ => 0) (fun _ _ => 0)
          (fun (r : Fin 2) (c : Fin 2) => if r = 0 ∧ c = 0 then 7 else 0)).2.1 =
          (fun (r : Fin 2) (c : Fin 2) => if r = 0 ∧ c = 0 then 7 else 0)) :=
  ⟨by decide,
    prev_frame_update_bounding_rect (fun _ _ => 0) (fun _ _ => 0)
      (fun (r : Fin 2) (c : Fin 2) => if r = 0 ∧ c = 0 then 7 else 0) (by decide)⟩

/-- C6: in partial-update mode, committing a frame that differs from the
previous snapshot performs a surface write (the wrote-flag is `true`),
leaves the snapshot equal to the whole new frame, and committing the same
frame again immediately afterwards is a complete no-op: neither the
surface nor the snapshot changes and no write happens. -/
theorem prev_frame_update_idempotent {hh ww : ℕ} (s p f : Frame hh ww)
    (hd : ∃ r c, f r c ≠ p r c) :
    (prev_frame_update s p f).2.2 = true ∧
      (prev_frame_update s p f).2.1 = f ∧
      prev_frame_update (prev_frame_update s p f).1 (prev_frame_update s p f).2.1 f =
        ((prev_frame_update s p f).1, f, false) := by
  obtain ⟨r, c, hrc⟩ := hd
  have hR : (diffRows p f).Nonempty :=
    ⟨r, by rw [diffRows, Finset.mem_filter]; exact ⟨Finset.mem_univ r, c, hrc⟩⟩
  have hfst : (prev_frame_update s p f).2.1 = f ∧ (prev_frame_update s p f).2.2 = true := by
    rw [prev_frame_update, dif_pos hR]
    exact ⟨rfl, rfl⟩
  have hRempty : ¬ (diffRows (f := f) (p := f) ).Nonempty := by
    rw [diffRows]
    simp
  refine ⟨hfst.2, hfst.1, ?_⟩
  rw [hfst.1]
  rw [prev_frame_update, dif_neg hRempty]

/-- Witness for C6 on concrete 1×1 frames. -/
theorem prev_frame_update_idempotent_witness :
    (∃ r c, (fun (_ : Fin 1) (_ : Fin 1) => (3 : ℕ)) r c ≠
        (fun (_ : Fin 1) (_ : Fin 1) => (0 : ℕ)) r c) ∧
      ((prev_frame_update (fun _ _ => 0) (fun _ _ => 0)
          (fun (_ : Fin 1) (_ : Fin 1) => (3 : ℕ))).2.2 = true ∧
        (prev_frame_update (fun _ _ => 0) (fun _ _ => 0)
          (fun (_ : Fin 1) (_ : Fin 1) => (3 : ℕ))).2.1 =
          (fun (_ : Fin 1) (_ : Fin 1) => (3 : ℕ)) ∧
        prev_frame_update
          (prev_frame_update (fun _ _ => 0) (fun _ _ => 0)
            (fun (_ : Fin 1) (_ : Fin 1) => (3 : ℕ))).1
          (prev_frame_update (fun _ _ => 0) (fun _ _ => 0)
            (fun (_ : Fin 1) (_ : Fin 1) => (3 : ℕ))).2.1
          (fun (_ : Fin 1) (_ : Fin 1) => (3 : ℕ)) =
          ((prev_frame_update (fun _ _ => 0) (fun _ _ => 0)
            (fun (_ : Fin 1) (_ : Fin 1) => (3 : ℕ))).1,
            (fun (_ : Fin 1) (_ : Fin 1) => (3 : ℕ)), false)) :=
  ⟨by decide,
    prev_frame_update_idempotent (fun _ _ => 0) (fun _ _ => 0)
      (fun (_ : Fin 1) (_ : Fin 1) => (3 : ℕ)) (by decide)⟩

/-- `np.random.permutation n` is a permutation of `range n` for every
oracle of random draws. -/
theorem randPerm_perm_range (g : ℕ → ℕ) (n : ℕ) :
    List.Perm (randPerm g n) (List.range n) := by
  cases n with
  | zero => simp [randPerm, fyPass]
  | succ m =>
    have h : m < (List.range (m + 1)).length := by simp
    simpa [randPerm] using fyPass_perm g m (List.range (m + 1)) h

/-- C10: in black-and-white mode the Color Mapper's output depends only on
the intensity value, not on the position argument: two calls with the same
intensity and any two positions produce identical packed 16-bit colors. -/
theorem float_to_rgb565_bw_ignores_position (lut : List ℕ) (h1 h2 v : ℝ) :
    float_to_rgb565 true lut h1 v = float_to_rgb565 true lut h2 v := by
  simp [float_to_rgb565]

/-- `getD` of a map over `List.range` at an in-range index. -/
theorem getD_map_range {α : Type} (m k : ℕ) (f : ℕ → α) (d : α) (hk : k < m) :
    ((List.range m).map f).getD k d = f k := by
  rw [List.getD_eq_getElem?_getD]
  simp [List.getElem?_range, hk]

/-- Every member of a list is at most its `foldr max` over any base. -/
theorem mem_le_foldr_max (l : List ℝ) (b x : ℝ) (hx : x ∈ l) :
    x ≤ l.foldr max b := by
  induction l with
  | nil => simp at hx
  | cons a t ih =>
    rcases List.mem_cons.mp hx with h | h
    · rw [h, List.foldr_cons]
      exact le_max_left _ _
    · exact le_trans (ih h) (le_max_right _ _)

/-- The base is at most the `foldr max`. -/
theorem base_le_foldr_max (l : List ℝ) (b : ℝ) : b ≤ l.foldr max b := by
  induction l with
  | nil => simp
  | cons a t ih => exact le_trans ih (le_max_right _ _)

/-- Spectral magnitudes are non-negative. -/
theorem rfftAmp_nonneg (N : ℕ) (buf : Fin N → ℝ) (k : ℕ) :
    0 ≤ rfftAmp N buf k :=
  AbsoluteValue.nonneg Complex.abs _

/-- The divisor `amp.max() or 1.0` is positive. -/
theorem rfftDivisor_pos (N : ℕ) (buf : Fin N → ℝ) :
    0 < rfftDivisor N buf := by
  unfold rfftDivisor
  split
  · norm_num
  · rename_i hne
    have h0 : (0 : ℝ) ≤ rfftMax N buf := base_le_foldr_max _ _
    exact lt_of_le_of_ne h0 (Ne.symm hne)

/-- C8: in frequency mode every audio block of `N` samples yields
`N/2+1` spectral magnitudes normalized by the block's maximum magnitude
(divisor `1.0` when the maximum is zero): the divisor is never zero,
every normalized bin lies in `[0,1]`, and a silent block yields zeros. -/
theorem rfft_normalization (N : ℕ) (buf : Fin N → ℝ) (k : ℕ)
    (hk : k < N / 2 + 1) :
    (rfftNorm N buf).length = N / 2 + 1 ∧
      rfftDivisor N buf ≠ 0 ∧
      0 ≤ (rfftNorm N buf).getD k 0 ∧
      (rfftNorm N buf).getD k 0 ≤ 1 ∧
      ((∀ j, buf j = 0) → (rfftNorm N buf).getD k 0 = 0) := by
  have hdiv : 0 < rfftDivisor N buf := rfftDivisor_pos N buf
  have hgetD : (rfftNorm N buf).getD k 0 = rfftAmp N buf k / rfftDivisor N buf := by
    rw [rfftNorm, rfftAmpList, List.map_map]
    exact getD_map_range _ k _ 0 hk
  have hmem : rfftAmp N buf k ∈ rfftAmpList N buf := by
    rw [rfftAmpList]
    exact List.mem_map_of_mem _ (List.mem_range.mpr hk)
  have hle : rfftAmp N buf k ≤ rfftMax N buf := mem_le_foldr_max _ _ _ hmem
  refine ⟨by simp [rfftNorm, rfftAmpList], ne_of_gt hdiv, ?_, ?_, ?_⟩
  · rw [hgetD]
    exact div_nonneg (rfftAmp_nonneg N buf k) (le_of_lt hdiv)
  · rw [hgetD]
    by_cases hmax : rfftMax N buf = 0
    · have hz : rfftAmp N buf k = 0 :=
        le_antisymm (hmax ▸ hle) (rfftAmp_nonneg N buf k)
      rw [hz]
      simp [le_of_lt hdiv]
    · have hdv : rfftDivisor N buf = rfftMax N buf := by
        rw [rfftDivisor, if_neg hmax]
      rw [hdv]
      exact div_le_one_of_le₀ hle (le_trans (rfftAmp_nonneg N buf k) hle)
  · intro hz
    have hamp : rfftAmp N buf k = 0 := by
      simp [rfftAmp, hz]
    rw [hgetD, hamp, zero_div]

/-- Witness for C8 at `N = 1` on the silent block. -/
theorem rfft_normalization_witness :
    0 < 1 / 2 + 1 ∧
      ((rfftNorm 1 (fun _ => 0)).length = 1 / 2 + 1 ∧
        rfftDivisor 1 (fun _ => 0) ≠ 0 ∧
        0 ≤ (rfftNorm 1 (fun _ => 0)).getD 0 0 ∧
        (rfftNorm 1 (fun _ => 0)).getD 0 0 ≤ 1 ∧
        ((∀ j : Fin 1, (0 : ℝ) = 0) → (rfftNorm 1 (fun _ => 0)).getD 0 0 = 0)) :=
  ⟨by norm_num, rfft_normalization 1 (fun _ => 0) 0 (by norm_num)⟩

/-- C2 counterexample: in amplitude mode with `blocksize = 4` and a 2×2
screen, the code's fixed sample points (spanning `[0, 4/2+1) = [0, 3)`)
are not the points spanning `[0, blockSize) = [0, 4)` that the claim
asserts for amplitude mode. -/
theorem interp_x_ne_claimed_amplitude :
    interp_x 4 4 ≠ claimed_interp_x false 4 4 := by
  intro h
  have h1 := congrArg (fun l => l.getD 1 0) h
  simp only [interp_x, claimed_interp_x, linspace] at h1
  rw [getD_map_range 4 1 _ 0 (by norm_num), getD_map_range 4 1 _ 0 (by norm_num)] at h1
  norm_num at h1

/-- C2 amended: the Spatial Interpolator always samples `width*height`
evenly spaced points spanning `[0, blockSize/2+1)`, whatever the mode —
this coincides with the bin range the Signal Extractor produces in
frequency mode (the length of the normalized spectrum), but in amplitude
mode it does not span the claimed `[0, blockSize)`. -/
theorem interp_x_spans_freq_range (blocksize wh : ℕ) (buf : Fin blocksize → ℝ) :
    interp_x blocksize wh = claimed_interp_x true blocksize wh ∧
      interp_x blocksize wh = linspace 0 (((rfftNorm blocksize buf).length : ℕ) : ℝ) wh := by
  constructor
  · rfl
  · have hlen : (rfftNorm blocksize buf).length = blocksize / 2 + 1 := by
      simp [rfftNorm, rfftAmpList]
    rw [hlen]
    rfl

/-- `getD` at an in-range index is `getElem`. -/
theorem getD_lt {α : Type} (l : List α) (i : ℕ) (d : α) (h : i < l.length) :
    l.getD i d = l[i] := by
  rw [List.getD_eq_getElem?_getD, List.getElem?_eq_getElem h]
  rfl

/-- `np.interp` evaluated exactly at an in-range integer sample point
returns that sample. -/
theorem npInterp_at_int (fp : List ℝ) (i : ℕ) (hi : i < fp.length) :
    npInterp fp (i : ℝ) = fp.getD i 0 := by
  unfold npInterp
  by_cases h0 : (i : ℝ) ≤ 0
  · have hz : i = 0 := by exact_mod_cast le_antisymm (by exact_mod_cast h0) (Nat.zero_le i)
    rw [if_pos h0, hz]
  · rw [if_neg h0]
    by_cases h1 : ((fp.length - 1 : ℕ) : ℝ) ≤ (i : ℝ)
    · have hle : fp.length - 1 ≤ i := by exact_mod_cast h1
      have heq : i = fp.length - 1 := by omega
      rw [if_pos h1, heq]
    · rw [if_neg h1]
      have hfloor : (⌊(i : ℝ)⌋).toNat = i := by
        rw [Int.floor_natCast]
        exact Int.toNat_natCast i
      simp only [hfloor]
      ring

/-- C7 counterexample: with `blocksize = 4` and a 2×2 screen (target count
4), a source of length 4 = target count is not reproduced unchanged: the
sample points are fixed to span `[0, 4/2+1)` rather than the source's
index domain, so the second output sample interpolates to 75, not 100. -/
theorem interpolated_not_identity :
    interpolated 4 4 [0, 100, 200, 300] ≠ [0, 100, 200, 300] := by
  intro h
  have h1 := congrArg (fun l => l.getD 1 0) h
  simp only [interpolated, interp_x, linspace, List.map_map] at h1
  rw [getD_map_range 4 1 _ 0 (by norm_num)] at h1
  have hx : (0 : ℝ) + (1 : ℕ) * ((((4 / 2 + 1 : ℕ) : ℝ) - 0) / ((4 : ℕ) : ℝ)) = 3 / 4 := by
    norm_num
  rw [Function.comp] at h1
  norm_num [hx] at h1
  have hni : npInterp ([0, 100, 200, 300] : List ℝ) (3 / 4) = 75 := by
    unfold npInterp
    rw [if_neg (by norm_num), if_neg (by norm_num)]
    have hfl : (⌊(3 : ℝ) / 4⌋).toNat = 0 := by
      have : ⌊(3 : ℝ) / 4⌋ = 0 := Int.floor_eq_zero_iff.mpr (by constructor <;> norm_num)
      rw [this]
      rfl
    simp only [hfl]
    norm_num
  rw [hni] at h1
  have h75 : (⌊(75 : ℝ)⌋).toNat = 75 := by
    rw [show (75 : ℝ) = ((75 : ℕ) : ℝ) by norm_num, Int.floor_natCast, Int.toNat_natCast]
  rw [h75] at h1
  exact absurd h1 (by decide)

/-- C7 amended: a source sequence of length 1 is spread to `width*height`
copies of its single value; and the identity case — output equal to the
source when the source length equals the target count — holds when, in
addition, `blockSize/2+1` equals `width*height`, so that the fixed sample
grid `[0, blockSize/2+1)` lands exactly on the source indices (by the C7
counterexample it fails for general block sizes). -/
theorem interpolated_resampling :
    (∀ bs wh v, v < 65536 → interpolated bs wh [v] = List.replicate wh v) ∧
      (∀ bs wh (rgb : List ℕ), rgb.length = wh → bs / 2 + 1 = wh →
        (∀ x ∈ rgb, x < 65536) → interpolated bs wh rgb = rgb) := by
  constructor
  · intro bs wh v hv
    unfold interpolated
    have hval : ∀ x : ℝ, npInterp (List.map (fun u : ℕ => (u : ℝ)) [v]) x = (v : ℝ) := by
      intro x
      unfold npInterp
      by_cases hx : x ≤ 0
      · rw [if_pos hx]
        rfl
      · rw [if_neg hx, if_pos ?_]
        · rfl
        · simp only [List.map, List.length_cons, List.length_nil]
          push_cast
          exact le_of_lt (lt_of_not_le hx)
    have hmap : ∀ x : ℝ,
        (⌊npInterp (List.map (fun u : ℕ => (u : ℝ)) [v]) x⌋).toNat % 65536 = v := by
      intro x
      rw [hval x, Int.floor_natCast, Int.toNat_natCast]
      exact Nat.mod_eq_of_lt hv
    rw [List.eq_replicate_iff]
    constructor
    · simp [interp_x, linspace]
    · intro b hb
      obtain ⟨x, _, hxb⟩ := List.mem_map.mp hb
      rw [← hxb, hmap x]
  · intro bs wh rgb hlen hbs hmem
    have hwh : 0 < wh := by omega
    have hfp : (List.map (fun u : ℕ => (u : ℝ)) rgb).length = wh := by
      simpa using hlen
    apply List.ext_getElem
    · simp [interpolated, interp_x, linspace, hlen]
    · intro i hi1 hi2
      have hiwh : i < wh := by
        simpa [interpolated, interp_x, linspace] using hi1
      have hilen : i < rgb.length := by omega
      simp only [interpolated, interp_x, linspace, List.map_map, List.getElem_map,
        List.getElem_range, Function.comp_apply]
      have hx : (0 : ℝ) + (i : ℝ) * ((((bs / 2 + 1 : ℕ) : ℝ) - 0) / ((wh : ℕ) : ℝ)) = (i : ℝ) := by
        rw [hbs]
        have hne : ((wh : ℕ) : ℝ) ≠ 0 := by
          exact_mod_cast Nat.pos_iff_ne_zero.mp hwh
        field_simp
      rw [hx, npInterp_at_int _ i (by omega), getD_lt _ i 0 (by omega),
        List.getElem_map, Int.floor_natCast, Int.toNat_natCast]
      exact Nat.mod_eq_of_lt (hmem _ (List.getElem_mem hilen))

/-- Witness for C7's amended statement: length-1 source at `blocksize = 5`,
3-pixel screen; identity case at `blocksize = 2`, 2-pixel screen. -/
theorem interpolated_resampling_witness :
    (9 < 65536 ∧ interpolated 5 3 [9] = List.replicate 3 9) ∧
      (([5, 7] : List ℕ).length = 2 ∧ 2 / 2 + 1 = 2 ∧
        (∀ x ∈ ([5, 7] : List ℕ), x < 65536) ∧ interpolated 2 2 [5, 7] = [5, 7]) :=
  ⟨⟨by norm_num, interpolated_resampling.1 5 3 9 (by norm_num)⟩,
    ⟨rfl, by norm_num, by decide,
      interpolated_resampling.2 2 2 [5, 7] rfl (by norm_num) (by decide)⟩⟩

/-- C5: for every frame `t` processed in random-map mode, whether or not
reshuffle-each-frame is enabled and whatever values every random draw
took, the random map used to reindex the samples is a permutation of the
integers `[0, width*height)`: no index repeats and none is missing. -/
theorem random_map_used_perm (g0 : ℕ → ℕ) (gs : ℕ → ℕ → ℕ) (reshuffle : Bool)
    (w h t : ℕ) :
    List.Perm (random_map_used g0 gs reshuffle (w * h) t) (List.range (w * h)) := by
  cases reshuffle with
  | false => simpa [random_map_used] using randPerm_perm_range g0 (w * h)
  | true => simpa [random_map_used] using randPerm_perm_range (gs t) (w * h)

end V1dp1
